import Mathlib

/-! Verification of the variational layer core in src/aboleth/layer.py: a
shallow embedding of the layer build functions, the Gaussian prior/posterior
distributions and their KL formulas, and the random-Fourier kernels, together
with proofs of the specified properties.

Tensors are modelled as lists of scalars (1-D, flattened) or lists of rows
(2-D); the scalar type is a linear ordered field `A`, with the transcendental
functions of the tensor runtime (`tf.log`, `tf.exp`, `tf.sqrt`, `cos`, `sin`)
and the positivity transform `pos` (aboleth.util, not part of the staged
sources) passed in as explicit function parameters.  Random draws
(`tf.random_normal`, `np.random.randn`, `np.random.chisquare`) are modelled as
reads from an ambient stream `N -> A` at an explicitly threaded position, and
`tf.Variable` creation as allocation of a fresh numeric id. -/

set_option linter.unusedSectionVars false

namespace Aboleth

/-- A 1-D tensor of scalars (a flattened tensorflow tensor). -/
abbrev Tensor (A : Type) := List A

/-- A 2-D tensor: a list of rows. -/
abbrev Mat (A : Type) := List (List A)

variable {A : Type} [LinearOrderedField A]

/-- `tf.reduce_sum` over a tensor. -/
def reduce_sum (t : Tensor A) : A := t.sum

/-- Shape of a 2-D tensor: `r` rows, every row of width `c`. -/
def HasShape (M : Mat A) (r c : ℕ) : Prop :=
  M.length = r ∧ ∀ row ∈ M, row.length = c

instance (M : Mat A) (r c : ℕ) : Decidable (HasShape M r c) := by
  unfold HasShape; infer_instance

/-- The build function returned by `eye()` (layer.py lines 12-18): outputs the
input list unchanged with KL 0. -/
def build_eye (X : List (Mat A)) : List (Mat A) × A := (X, 0)

/-- The build function returned by `activation(h)` (layer.py lines 21-27):
applies `h` to each tensor of the list, KL 0.  The factory's default argument
is `h = lambda X: X`, the identity. -/
def build_activation (h : Mat A → Mat A) (X : List (Mat A)) : List (Mat A) × A :=
  (X.map h, 0)

/-- A layer build function: a list of tensors to (list of tensors, KL). -/
abbrev Layer (A : Type) := List (Mat A) → List (Mat A) × A

/-- The build function returned by `lmap(*layers)` (layer.py lines 39-48):
raises `ValueError` when the input count differs from the layer count,
otherwise applies the layers pointwise and sums the KL contributions. -/
def build_lmap (layers : List (Layer A)) (Xs : List (List (Mat A))) :
    Except String (List (List (Mat A)) × A) :=
  if Xs.length ≠ layers.length then
    Except.error "Number of layers and inputs not the same!"
  else
    let rs := List.zipWith (fun p X => p X) layers Xs
    Except.ok (rs.map Prod.fst, (rs.map Prod.snd).sum)

/-- `tf.concat(X, axis=1)` on a list of matrices with equal row counts: the
rows are joined pointwise. -/
def concat_feat : List (Mat A) → Mat A
  | [] => []
  | [M] => M
  | M :: M2 :: Ms => List.zipWith (· ++ ·) M (concat_feat (M2 :: Ms))

/-- The build function returned by `cat()` (layer.py lines 51-58): each entry
of the input (the group of tensors belonging to one sample) is concatenated
along the feature axis, KL 0. -/
def build_cat (Xs : List (List (Mat A))) : List (Mat A) × A :=
  (Xs.map (fun X => concat_feat X), 0)

/-! Helper lemmas on list indexing. -/

theorem getD_zipWith {B C D : Type} (f : B → C → D) (as : List B) (bs : List C)
    (i : ℕ) (da : B) (db : C) (dd : D) (ha : i < as.length) (hb : i < bs.length) :
    (List.zipWith f as bs).getD i dd = f (as.getD i da) (bs.getD i db) := by
  induction as generalizing bs i with
  | nil => simp at ha
  | cons a as ih =>
    cases bs with
    | nil => simp at hb
    | cons b bs =>
      cases i with
      | zero => rfl
      | succ n =>
        simp only [List.zipWith_cons_cons, List.getD_cons_succ]
        exact ih bs n (by simpa using ha) (by simpa using hb)

theorem getD_map {B C : Type} (f : B → C) (l : List B) (i : ℕ) (db : B) (dc : C)
    (h : i < l.length) : (l.map f).getD i dc = f (l.getD i db) := by
  induction l generalizing i with
  | nil => simp at h
  | cons x xs ih =>
    cases i with
    | zero => rfl
    | succ n =>
      simp only [List.map_cons, List.getD_cons_succ]
      exact ih n (by simpa using h)

theorem hasShape_zipWith_append (M N : Mat A) (r c1 c2 : ℕ)
    (hM : HasShape M r c1) (hN : HasShape N r c2) :
    HasShape (List.zipWith (· ++ ·) M N) r (c1 + c2) := by
  obtain ⟨hMl, hMr⟩ := hM
  obtain ⟨hNl, hNr⟩ := hN
  constructor
  · simp [List.length_zipWith, hMl, hNl]
  · intro row hrow
    obtain ⟨n, hn, hrow⟩ := List.mem_iff_getElem.mp hrow
    have hmin := hn
    rw [List.length_zipWith, lt_min_iff] at hmin
    rw [List.getElem_zipWith] at hrow
    subst hrow
    rw [List.length_append, hMr _ (List.getElem_mem hmin.1), hNr _ (List.getElem_mem hmin.2)]

/-- C10: the build function of `activation()` at its default argument
`h = lambda X: X` is extensionally the build function of `eye()`: on every
input list both return the input tensors unchanged, in order, with KL 0. -/
theorem C10_activation_default_is_eye (X : List (Mat A)) :
    build_activation (fun x => x) X = build_eye X ∧ build_eye X = (X, 0) := by
  constructor
  · simp [build_activation, build_eye]
  · rfl

/-- C7: `lmap` returns the designated length-mismatch error whenever the input
count differs from the layer count (a construction-time hard error, nothing is
zipped or truncated), and on matching lengths returns the per-layer outputs in
order with KL the sum of the sub-layers' KL contributions. -/
theorem C7_lmap_length_contract (layers : List (Layer A)) (Xs : List (List (Mat A))) :
    (Xs.length ≠ layers.length →
      build_lmap layers Xs = Except.error "Number of layers and inputs not the same!") ∧
    (Xs.length = layers.length →
      ∃ Phis KL, build_lmap layers Xs = Except.ok (Phis, KL) ∧
        Phis.length = layers.length ∧
        (∀ i, i < layers.length →
          Phis.getD i [] = ((layers.getD i build_eye) (Xs.getD i [])).1) ∧
        KL = ((List.range layers.length).map
          (fun i => ((layers.getD i build_eye) (Xs.getD i [])).2)).sum) := by
  constructor
  · intro hne
    simp [build_lmap, hne]
  · intro heq
    refine ⟨((List.zipWith (fun p X => p X) layers Xs).map Prod.fst),
      ((List.zipWith (fun p X => p X) layers Xs).map Prod.snd).sum, ?_, ?_, ?_, ?_⟩
    · simp [build_lmap, heq]
    · simp [List.length_map, List.length_zipWith, heq]
    · intro i hi
      rw [getD_map Prod.fst _ i (build_eye (Xs.getD i [])) []
          (by simp only [List.length_zipWith]; omega),
        getD_zipWith (fun p X => p X) layers Xs i build_eye [] _ hi (heq ▸ hi)]
    · congr 1
      apply List.ext_getElem
      · simp [List.length_zipWith, heq]
      · intro i h1 h2
        have hi : i < layers.length := by
          simpa [List.length_zipWith, heq] using h1
        rw [List.getElem_map, List.getElem_zipWith, List.getElem_map, List.getElem_range]
        rw [List.getD_eq_getElem layers build_eye hi, List.getD_eq_getElem Xs [] (heq ▸ hi)]

/-- Witness for C7 at a concrete mismatch (2 layers, 3 inputs) and a concrete
match (1 layer, 1 input), over the rationals. -/
theorem C7_lmap_length_contract_witness :
    build_lmap [build_eye, build_eye] [[[[(1 : ℚ)]]], [[[2]]], [[[3]]]] =
      Except.error "Number of layers and inputs not the same!" ∧
    ∃ Phis KL, build_lmap [build_eye] [[[[(5 : ℚ)]]]] = Except.ok (Phis, KL) := by
  constructor
  · exact (C7_lmap_length_contract [build_eye, build_eye]
      [[[[(1 : ℚ)]]], [[[2]]], [[[3]]]]).1 (by decide)
  · obtain ⟨Phis, KL, h, -⟩ :=
      (C7_lmap_length_contract [build_eye] [[[[(5 : ℚ)]]]]).2 (by decide)
    exact ⟨Phis, KL, h⟩

/-- C4: feeding `cat` the per-sample groups of two tensor lists of matching
per-sample row counts concatenates each pair along the feature axis: one
output tensor per sample, in order, each of feature width the sum of the two
inputs' widths for that sample, with KL contribution 0. -/
theorem C4_cat_per_sample (a B : List (Mat A)) (r ca cb : ℕ → ℕ)
    (hlen : a.length = B.length)
    (hA : ∀ i, i < a.length → HasShape (a.getD i []) (r i) (ca i))
    (hB : ∀ i, i < a.length → HasShape (B.getD i []) (r i) (cb i)) :
    (build_cat (List.zipWith (fun x y => [x, y]) a B)).1.length = a.length ∧
    (∀ i, i < a.length →
      (build_cat (List.zipWith (fun x y => [x, y]) a B)).1.getD i [] =
        List.zipWith (· ++ ·) (a.getD i []) (B.getD i [])) ∧
    (∀ i, i < a.length →
      HasShape ((build_cat (List.zipWith (fun x y => [x, y]) a B)).1.getD i [])
        (r i) (ca i + cb i)) ∧
    (build_cat (List.zipWith (fun x y => [x, y]) a B)).2 = 0 := by
  have hkey : ∀ i, i < a.length →
      (build_cat (List.zipWith (fun x y => [x, y]) a B)).1.getD i [] =
        List.zipWith (· ++ ·) (a.getD i []) (B.getD i []) := by
    intro i hi
    show ((List.zipWith (fun x y => [x, y]) a B).map (fun X => concat_feat X)).getD i [] = _
    rw [getD_map (fun X => concat_feat X) _ i [] []
        (by simp only [List.length_zipWith]; omega),
      getD_zipWith (fun x y => [x, y]) a B i [] [] _ hi (hlen ▸ hi)]
    rfl
  refine ⟨?_, hkey, ?_, rfl⟩
  · simp [build_cat, List.length_zipWith, hlen]
  · intro i hi
    rw [hkey i hi]
    exact hasShape_zipWith_append _ _ _ _ _ (hA i hi) (hB i hi)

/-- Witness for C4: one sample, a 1x2 tensor concatenated with a 1x1 tensor,
over the rationals. -/
theorem C4_cat_per_sample_witness :
    (build_cat [[[[(1 : ℚ), 2]], [[3]]]]).1.getD 0 [] = [[1, 2, 3]] ∧
    HasShape ((build_cat [[[[(1 : ℚ), 2]], [[3]]]]).1.getD 0 []) 1 3 ∧
    (build_cat [[[[(1 : ℚ), 2]], [[3]]]]).2 = 0 := by
  have h := C4_cat_per_sample [[[(1 : ℚ), 2]]] [[[(3 : ℚ)]]]
    (fun _ => 1) (fun _ => 2) (fun _ => 1) rfl (by decide) (by decide)
  refine ⟨?_, ?_, h.2.2.2⟩
  · have := h.2.1 0 (by decide)
    simpa using this
  · have := h.2.2.1 0 (by decide)
    simpa using this

/-! The distribution classes of layer.py: `_Normal`, `_NormPrior`,
`_NormPosterior`, `_MixPosterior`. -/

/-- The parameters of `_Normal` (layer.py lines 197-202): mean and variance
tensors of one shape. -/
structure NormalDist (A : Type) where
  mu : Tensor A
  var : Tensor A
deriving DecidableEq

/-- Pointwise map over three equal-shape tensors. -/
def zipWith3 (f : A → A → A → A) : Tensor A → Tensor A → Tensor A → Tensor A
  | a :: as, b :: bs, c :: cs => f a b c :: zipWith3 f as bs cs
  | _, _, _ => []

/-- Pointwise map over four equal-shape tensors. -/
def zipWith4 (f : A → A → A → A → A) :
    Tensor A → Tensor A → Tensor A → Tensor A → Tensor A
  | a :: as, b :: bs, c :: cs, d :: ds => f a b c d :: zipWith4 f as bs cs ds
  | _, _, _, _ => []

/-- One elementwise term of `_Normal.KL` (layer.py lines 210-213), with `L`
standing for `tf.log`. -/
def klTerm (L : A → A) (qm qv pm pv : A) : A :=
  (1 / 2) * (L pv - L qv + qv / pv - 1 + (qm - pm) ^ 2 / pv)

/-- `_Normal.KL(p)` (layer.py lines 210-213): the elementwise tensor
`0.5 * (log p.var - log q.var + q.var / p.var - 1 + (q.mu - p.mu)^2 / p.var)`. -/
def Normal_KL (L : A → A) (q p : NormalDist A) : Tensor A :=
  zipWith4 (fun qm qv pm pv => klTerm L qm qv pm pv) q.mu q.var p.mu p.var

/-- `_log_norm(x, mu, var)` (layer.py lines 267-269):
`-0.5 * reduce_sum(log(2 * var * pi) + (x - mu)^2 / var)`. -/
def log_norm (L : A → A) (pi : A) (x mu vr : Tensor A) : A :=
  -(1 / 2) * reduce_sum (zipWith3 (fun xi mi vi => L (2 * vi * pi) + (xi - mi) ^ 2 / vi) x mu vr)

/-- `tf.reduce_logsumexp` over a list of scalars: `log (sum exp)`. -/
def reduce_logsumexp (L E : A → A) (xs : List A) : A := L (xs.map E).sum

/-- The parameters of `_MixPosterior` (layer.py lines 232-236): the component
Gaussians and the component count `K`. -/
structure MixDist (A : Type) where
  comps : List (NormalDist A)
  K : ℕ
deriving DecidableEq

/-- `_MixPosterior.KL(p)` (layer.py lines 248-258), exactly as coded: the
pairwise overlap log-densities subtract the integer `K` itself
(`_log_norm(...) - self.K`). -/
def MixPosterior_KL (L E : A → A) (pi : A) (q : MixDist A) (p : NormalDist A) : A :=
  (q.comps.map (fun qk =>
    let lp := log_norm L pi qk.mu p.mu p.var
    let tr := reduce_sum (List.zipWith (· / ·) qk.var p.var)
    let lq := q.comps.map (fun qj =>
      log_norm L pi qk.mu qj.mu (List.zipWith (· + ·) qk.var qj.var) - (q.K : A))
    let h := reduce_logsumexp L E lq
    (tr / 2 - lp + h) / (q.K : A))).sum

/-- The mixture KL lower bound as the spec documents it, for comparison with
`MixPosterior_KL`: identical except that the overlap log-densities subtract
`log K` (`_log_norm(...) - log(K)`). -/
def MixKL_spec (L E : A → A) (pi : A) (q : MixDist A) (p : NormalDist A) : A :=
  (q.comps.map (fun qk =>
    let lp := log_norm L pi qk.mu p.mu p.var
    let tr := reduce_sum (List.zipWith (· / ·) qk.var p.var)
    let lq := q.comps.map (fun qj =>
      log_norm L pi qk.mu qj.mu (List.zipWith (· + ·) qk.var qj.var) - L (q.K : A))
    let h := reduce_logsumexp L E lq
    (tr / 2 - lp + h) / (q.K : A))).sum

/-! Supporting lemmas for the KL sign properties. -/

theorem mem_zipWith4 (f : A → A → A → A → A) (as bs cs ds : Tensor A) (x : A)
    (hx : x ∈ zipWith4 f as bs cs ds) :
    ∃ a ∈ as, ∃ b ∈ bs, ∃ c ∈ cs, ∃ d ∈ ds, x = f a b c d := by
  induction as generalizing bs cs ds with
  | nil => simp [zipWith4] at hx
  | cons a as ih =>
    cases bs with
    | nil => simp [zipWith4] at hx
    | cons b bs =>
      cases cs with
      | nil => simp [zipWith4] at hx
      | cons c cs =>
        cases ds with
        | nil => simp [zipWith4] at hx
        | cons d ds =>
          rw [zipWith4, List.mem_cons] at hx
          rcases hx with hx | hx
          · exact ⟨a, by simp, b, by simp, c, by simp, d, by simp, hx⟩
          · obtain ⟨a', ha, b', hb, c', hc, d', hd, hx⟩ := ih bs cs ds hx
            exact ⟨a', by simp [ha], b', by simp [hb], c', by simp [hc], d', by simp [hd], hx⟩

theorem klTerm_nonneg (qm qv pm pv : ℝ) (hq : 0 < qv) (hp : 0 < pv) :
    0 ≤ klTerm Real.log qm qv pm pv := by
  have h1 : Real.log (qv / pv) ≤ qv / pv - 1 := Real.log_le_sub_one_of_pos (div_pos hq hp)
  have h2 : Real.log (qv / pv) = Real.log qv - Real.log pv :=
    Real.log_div (ne_of_gt hq) (ne_of_gt hp)
  have h3 : 0 ≤ (qm - pm) ^ 2 / pv := div_nonneg (sq_nonneg _) (le_of_lt hp)
  unfold klTerm
  linarith

theorem klTerm_diag_sum_zero (L : A → A) (mu vr : Tensor A)
    (hv : ∀ v ∈ vr, v ≠ 0) :
    (zipWith4 (fun qm qv pm pv => klTerm L qm qv pm pv) mu vr mu vr).sum = 0 := by
  induction mu generalizing vr with
  | nil => simp [zipWith4]
  | cons m ms ih =>
    cases vr with
    | nil => simp [zipWith4]
    | cons v vs =>
      rw [zipWith4, List.sum_cons, ih vs (fun w hw => hv w (by simp [hw]))]
      have hv0 : v ≠ 0 := hv v (by simp)
      unfold klTerm
      rw [div_self hv0]
      ring

/-- C6: for diagonal Gaussians with strictly positive variances the summed
`_Normal.KL` is non-negative, and it is 0 when `q.mu == p.mu` and
`q.var == p.var`. -/
theorem C6_KL_nonneg_and_zero_on_diag (q p : NormalDist ℝ)
    (hq : ∀ v ∈ q.var, 0 < v) (hp : ∀ v ∈ p.var, 0 < v) :
    0 ≤ reduce_sum (Normal_KL Real.log q p) ∧
    (q.mu = p.mu → q.var = p.var → reduce_sum (Normal_KL Real.log q p) = 0) := by
  constructor
  · apply List.sum_nonneg
    intro x hx
    obtain ⟨qm, -, qv, hqv, pm, -, pv, hpv, hx⟩ :=
      mem_zipWith4 _ q.mu q.var p.mu p.var x hx
    rw [hx]
    exact klTerm_nonneg qm qv pm pv (hq qv hqv) (hp pv hpv)
  · intro hmu hvar
    unfold reduce_sum Normal_KL
    rw [← hmu, ← hvar]
    exact klTerm_diag_sum_zero Real.log q.mu q.var (fun v hv => ne_of_gt (hq v hv))

/-- Witness for C6 at `q = p` with mean 0 and variance 1. -/
theorem C6_KL_nonneg_witness :
    0 ≤ reduce_sum (Normal_KL Real.log ⟨[0], [1]⟩ ⟨[0], [1]⟩) ∧
    reduce_sum (Normal_KL Real.log ⟨[0], [1]⟩ ⟨[0], [1]⟩) = 0 := by
  have h := C6_KL_nonneg_and_zero_on_diag ⟨[0], [1]⟩ ⟨[0], [1]⟩
    (by intro v hv; rw [List.mem_singleton] at hv; rw [hv]; norm_num)
    (by intro v hv; rw [List.mem_singleton] at hv; rw [hv]; norm_num)
  exact ⟨h.1, h.2 rfl rfl⟩

/-- C1 (the code deviates from the documented bound): at the two-component
mixture with both components N(0,1) in one dimension and the prior N(0,1),
`_MixPosterior.KL` as coded (subtracting the integer `K` from the overlap
log-densities) differs from the documented formula (subtracting `log K`); the
difference is `log 2 - 2`. -/
theorem C1_mixture_KL_minus_K_deviates :
    MixPosterior_KL Real.log Real.exp Real.pi
        { comps := [{ mu := [0], var := [1] }, { mu := [0], var := [1] }], K := 2 }
        { mu := [0], var := [1] } ≠
      MixKL_spec Real.log Real.exp Real.pi
        { comps := [{ mu := [0], var := [1] }, { mu := [0], var := [1] }], K := 2 }
        { mu := [0], var := [1] } := by
  have hls : ∀ t : ℝ, Real.log (Real.exp t + (Real.exp t + 0)) = Real.log 2 + t := by
    intro t
    rw [add_zero, ← two_mul, Real.log_mul two_ne_zero (Real.exp_ne_zero t), Real.log_exp]
  have hlog2 : Real.log 2 < 2 := by
    have := Real.log_le_sub_one_of_pos (by norm_num : (0 : ℝ) < 2)
    linarith
  intro h
  simp only [MixPosterior_KL, MixKL_spec, log_norm, reduce_logsumexp, reduce_sum,
    zipWith3, List.zipWith, List.map, List.sum_cons, List.sum_nil, Nat.cast_ofNat] at h
  rw [hls, hls] at h
  ring_nf at h
  nlinarith [h, hlog2]

/-! The stateful part of the embedding: `tf.Variable` allocation and draws
from the random stream, threaded explicitly through `dense_var`'s build. -/

/-- Graph-construction state: the next `tf.Variable` id, the position in the
normal-draw stream, and the position in the categorical-draw stream used by
`tf.multinomial`. -/
structure GState where
  nextId : ℕ
  rpos : ℕ
  cpos : ℕ
deriving DecidableEq

/-- `n` consecutive draws from the stream `rng` starting at position `pos`. -/
def drawn (rng : ℕ → A) (pos n : ℕ) : Tensor A :=
  (List.range n).map (fun i => rng (pos + i))

/-- A distribution as built in the graph: the ids of the `tf.Variable`s
backing it plus its parameter tensors. -/
structure BuiltNormal (A : Type) where
  ids : List ℕ
  dist : NormalDist A
deriving DecidableEq

/-- `_NormPrior(dim, var, learn_var)` (layer.py lines 216-221): zero mean; the
variance is the scalar `pos(tf.Variable(var))` broadcast over `dim` when
`learn_var`, and the raw scalar `var` broadcast otherwise (no variable, no
positivity transform). -/
def NormPrior (posf : A → A) (dim : ℕ) (vr : A) (learn_var : Bool) (s : GState) :
    BuiltNormal A × GState :=
  if learn_var then
    ({ ids := [s.nextId],
       dist := { mu := List.replicate dim 0, var := List.replicate dim (posf vr) } },
     { s with nextId := s.nextId + 1 })
  else
    ({ ids := [], dist := { mu := List.replicate dim 0, var := List.replicate dim vr } }, s)

/-- `_NormPosterior(dim, prior_var)` (layer.py lines 224-229): mean
`tf.Variable(sqrt(prior_var) * random_normal(dim))` and variance
`pos(tf.Variable(prior_var * random_normal(dim)))`, with `sq` standing for
`tf.sqrt`; two fresh variables, `2 * dim` fresh draws. -/
def NormPosterior (posf sq : A → A) (rng : ℕ → A) (dim : ℕ) (prior_var : A)
    (s : GState) : BuiltNormal A × GState :=
  let muInit := (drawn rng s.rpos dim).map (fun e => sq prior_var * e)
  let varInit := (drawn rng (s.rpos + dim) dim).map (fun e => prior_var * e)
  ({ ids := [s.nextId, s.nextId + 1],
     dist := { mu := muInit, var := varInit.map posf } },
   { s with nextId := s.nextId + 2, rpos := s.rpos + 2 * dim })

/-- The component list of `_MixPosterior(dim, prior_var, K)` (layer.py lines
234-236): `K` fresh `_NormPosterior`s built left to right. -/
def MixPosterior_build (posf sq : A → A) (rng : ℕ → A) (dim : ℕ) (prior_var : A) :
    ℕ → GState → List (BuiltNormal A) × GState
  | 0, s => ([], s)
  | k + 1, s =>
    let r1 := NormPosterior posf sq rng dim prior_var s
    let r2 := MixPosterior_build posf sq rng dim prior_var k r1.2
    (r1.1 :: r2.1, r2.2)

/-- The posterior object `dense_var` builds: a single `_NormPosterior` when
`mixtures <= 1`, a `_MixPosterior` otherwise. -/
inductive QPost (A : Type) where
  | norm (q : BuiltNormal A)
  | mix (qs : List (BuiltNormal A)) (K : ℕ)
deriving DecidableEq

/-- The `tf.Variable` ids backing a posterior. -/
def QPost_ids : QPost A → List ℕ
  | .norm q => q.ids
  | .mix qs _ => (qs.map (fun b => b.ids)).flatten

/-- The variance tensors of a posterior. -/
def QPost_vars : QPost A → List (Tensor A)
  | .norm q => [q.dist.var]
  | .mix qs _ => qs.map (fun b => b.dist.var)

/-- `tf.reduce_sum(q.KL(p))` as `dense_var` evaluates it (layer.py line 97):
the summed elementwise KL for a single Gaussian, the scalar mixture bound
(already reduced) for a mixture. -/
def QPost_KL (L E : A → A) (pi : A) (q : QPost A) (p : BuiltNormal A) : A :=
  match q with
  | .norm q => reduce_sum (Normal_KL L q.dist p.dist)
  | .mix qs K => MixPosterior_KL L E pi { comps := qs.map (fun b => b.dist), K := K } p.dist

/-- `_Normal.sample()` (layer.py lines 204-208): `mu + e * sqrt(var)` with `e`
drawn fresh from the stream at `rpos` in the shape of `mu`. -/
def Normal_sample (sq : A → A) (rng : ℕ → A) (d : NormalDist A) (rpos : ℕ) :
    Tensor A × ℕ :=
  (zipWith3 (fun m v e => m + e * sq v) d.mu d.var (drawn rng rpos d.mu.length),
   rpos + d.mu.length)

/-- The accumulation loop of `_MixPosterior.sample()` (layer.py lines
242-245): every component's reparameterised sample is built (each branch of
`tf.cond` exists in the graph), the one whose index equals the categorical
draw `k` is kept and the others contribute zeros. -/
def Mix_sample_branches (sq : A → A) (rng : ℕ → A) (k dim : ℕ) :
    List (NormalDist A) → ℕ → ℕ → Tensor A × ℕ
  | [], _, rpos => (List.replicate dim 0, rpos)
  | d :: ds, i, rpos =>
    let r1 := Normal_sample sq rng d rpos
    let r2 := Mix_sample_branches sq rng k dim ds (i + 1) r1.2
    (List.zipWith (· + ·) (if k = i then r1.1 else List.replicate dim 0) r2.1, r2.2)

/-- A draw from the posterior: a reparameterised `_Normal.sample` for the
single-Gaussian form; for the mixture, `tf.multinomial` picks the component
index from the categorical stream and all branches are built (layer.py lines
238-246). -/
def QPost_sample (sq : A → A) (rng : ℕ → A) (catRng : ℕ → ℕ) :
    QPost A → GState → Tensor A × GState
  | .norm q, s =>
    let r := Normal_sample sq rng q.dist s.rpos
    (r.1, { s with rpos := r.2 })
  | .mix qs K, s =>
    let k := catRng s.cpos % K
    let ds := qs.map (fun b : BuiltNormal A => b.dist)
    let dim := (ds.headD ({ mu := [], var := [] } : NormalDist A)).mu.length
    let r := Mix_sample_branches sq rng k dim ds 0 s.rpos
    (r.1, { s with rpos := r.2, cpos := s.cpos + 1 })

/-- Dot product. -/
def dot (xs ys : Tensor A) : A := (List.zipWith (· * ·) xs ys).sum

/-- `tf.matmul`. -/
def matmul (M N : Mat A) : Mat A :=
  M.map (fun row => N.transpose.map (fun col => dot row col))

/-- Reshape a flat tensor of length `rows * cols` into a `rows x cols` matrix
(the 2-D weight tensor is carried flattened through the distributions). -/
def unflatten (rows cols : ℕ) (t : Tensor A) : Mat A :=
  (List.range rows).map (fun i => (List.range cols).map (fun j => t.getD (i * cols + j) 0))

/-- Row-broadcast addition of the bias vector in `tf.matmul(x, W) + b`. -/
def addRowVec (M : Mat A) (b : Tensor A) : Mat A :=
  M.map (fun row => List.zipWith (· + ·) row b)

/-- `_input_dim(X)` (layer.py lines 272-274): the feature-axis size of the
first input tensor. -/
def inputDim (X : List (Mat A)) : ℕ := ((X.getD 0 []).getD 0 []).length

/-- The prior/posterior construction of `dense_var`'s build (layer.py lines
81-91), in source order: prior for W, prior for b, then the posteriors, the
mixture variant when `mixtures > 1`. -/
def dense_params (posf sq : A → A) (rng : ℕ → A) (Wdim bdim : ℕ) (reg : A)
    (learn_prior : Bool) (mixtures : ℕ) (s : GState) :
    (BuiltNormal A × BuiltNormal A × QPost A × QPost A) × GState :=
  let rpW := NormPrior posf Wdim reg learn_prior s
  let rpb := NormPrior posf bdim reg learn_prior rpW.2
  if mixtures > 1 then
    let rqW := MixPosterior_build posf sq rng Wdim reg mixtures rpb.2
    let rqb := MixPosterior_build posf sq rng bdim reg mixtures rqW.2
    ((rpW.1, rpb.1, QPost.mix rqW.1 mixtures, QPost.mix rqb.1 mixtures), rqb.2)
  else
    let rqW := NormPosterior posf sq rng Wdim reg rpb.2
    let rqb := NormPosterior posf sq rng bdim reg rqW.2
    ((rpW.1, rpb.1, QPost.norm rqW.1, QPost.norm rqb.1), rqb.2)

/-- The output list of `dense_var`'s build (layer.py line 94):
`[tf.matmul(x, qW.sample()) + qb.sample() for x in X]`, each iteration drawing
fresh samples. -/
def dense_outputs (sq : A → A) (rng : ℕ → A) (catRng : ℕ → ℕ)
    (idim odim : ℕ) (qW qb : QPost A) :
    List (Mat A) → GState → List (Mat A) × GState
  | [], s => ([], s)
  | x :: xs, s =>
    let rW := QPost_sample sq rng catRng qW s
    let rb := QPost_sample sq rng catRng qb rW.2
    let y := addRowVec (matmul x (unflatten idim odim rW.1)) rb.1
    let rest := dense_outputs sq rng catRng idim odim qW qb xs rb.2
    (y :: rest.1, rest.2)

/-- Everything one invocation of the build function of
`dense_var(output_dim, reg, learn_prior, mixtures)` constructs (layer.py
lines 73-99). -/
structure DenseBuilt (A : Type) where
  pW : BuiltNormal A
  pb : BuiltNormal A
  qW : QPost A
  qb : QPost A
  Phi : List (Mat A)
  KL : A
  state : GState
deriving DecidableEq

/-- The build function returned by
`dense_var(output_dim, reg, learn_prior, mixtures)` (layer.py lines 71-101):
fresh priors and posteriors, affine outputs from fresh weight samples, and
`KL = reduce_sum(qW.KL(pW)) + reduce_sum(qb.KL(pb))`. -/
def build_dense (L E : A → A) (pi : A) (posf sq : A → A) (rng : ℕ → A)
    (catRng : ℕ → ℕ) (output_dim : ℕ) (reg : A) (learn_prior : Bool)
    (mixtures : ℕ) (X : List (Mat A)) (s : GState) : DenseBuilt A :=
  let idim := inputDim X
  let rp := dense_params posf sq rng (idim * output_dim) output_dim reg
    learn_prior mixtures s
  let pW := rp.1.1
  let pb := rp.1.2.1
  let qW := rp.1.2.2.1
  let qb := rp.1.2.2.2
  let rPhi := dense_outputs sq rng catRng idim output_dim qW qb X rp.2
  { pW := pW, pb := pb, qW := qW, qb := qb,
    Phi := rPhi.1,
    KL := QPost_KL L E pi qW pW + QPost_KL L E pi qb pb,
    state := rPhi.2 }

/-- All `tf.Variable` ids one `dense_var` build allocated for its four
distributions. -/
def denseIds (r : DenseBuilt A) : List ℕ :=
  r.pW.ids ++ r.pb.ids ++ QPost_ids r.qW ++ QPost_ids r.qb

/-! Projection lemmas for `build_dense` (all definitional). -/

theorem build_dense_pW (L E : A → A) (pi : A) (posf sq : A → A) (rng : ℕ → A)
    (catRng : ℕ → ℕ) (od : ℕ) (reg : A) (lp : Bool) (mx : ℕ)
    (X : List (Mat A)) (s : GState) :
    (build_dense L E pi posf sq rng catRng od reg lp mx X s).pW =
      (dense_params posf sq rng (inputDim X * od) od reg lp mx s).1.1 := rfl

theorem build_dense_pb (L E : A → A) (pi : A) (posf sq : A → A) (rng : ℕ → A)
    (catRng : ℕ → ℕ) (od : ℕ) (reg : A) (lp : Bool) (mx : ℕ)
    (X : List (Mat A)) (s : GState) :
    (build_dense L E pi posf sq rng catRng od reg lp mx X s).pb =
      (dense_params posf sq rng (inputDim X * od) od reg lp mx s).1.2.1 := rfl

theorem build_dense_qW (L E : A → A) (pi : A) (posf sq : A → A) (rng : ℕ → A)
    (catRng : ℕ → ℕ) (od : ℕ) (reg : A) (lp : Bool) (mx : ℕ)
    (X : List (Mat A)) (s : GState) :
    (build_dense L E pi posf sq rng catRng od reg lp mx X s).qW =
      (dense_params posf sq rng (inputDim X * od) od reg lp mx s).1.2.2.1 := rfl

theorem build_dense_qb (L E : A → A) (pi : A) (posf sq : A → A) (rng : ℕ → A)
    (catRng : ℕ → ℕ) (od : ℕ) (reg : A) (lp : Bool) (mx : ℕ)
    (X : List (Mat A)) (s : GState) :
    (build_dense L E pi posf sq rng catRng od reg lp mx X s).qb =
      (dense_params posf sq rng (inputDim X * od) od reg lp mx s).1.2.2.2 := rfl

theorem build_dense_KL (L E : A → A) (pi : A) (posf sq : A → A) (rng : ℕ → A)
    (catRng : ℕ → ℕ) (od : ℕ) (reg : A) (lp : Bool) (mx : ℕ)
    (X : List (Mat A)) (s : GState) :
    (build_dense L E pi posf sq rng catRng od reg lp mx X s).KL =
      QPost_KL L E pi (dense_params posf sq rng (inputDim X * od) od reg lp mx s).1.2.2.1
        (dense_params posf sq rng (inputDim X * od) od reg lp mx s).1.1 +
      QPost_KL L E pi (dense_params posf sq rng (inputDim X * od) od reg lp mx s).1.2.2.2
        (dense_params posf sq rng (inputDim X * od) od reg lp mx s).1.2.1 := rfl

theorem build_dense_state (L E : A → A) (pi : A) (posf sq : A → A) (rng : ℕ → A)
    (catRng : ℕ → ℕ) (od : ℕ) (reg : A) (lp : Bool) (mx : ℕ)
    (X : List (Mat A)) (s : GState) :
    (build_dense L E pi posf sq rng catRng od reg lp mx X s).state =
      (dense_outputs sq rng catRng (inputDim X) od
        (dense_params posf sq rng (inputDim X * od) od reg lp mx s).1.2.2.1
        (dense_params posf sq rng (inputDim X * od) od reg lp mx s).1.2.2.2 X
        (dense_params posf sq rng (inputDim X * od) od reg lp mx s).2).2 := rfl

/-! Id-range lemmas: every build allocates only fresh variable ids. -/

theorem NormPrior_nextId_range (posf : A → A) (dim : ℕ) (vr : A) (lv : Bool)
    (s : GState) :
    s.nextId ≤ ((NormPrior posf dim vr lv s).2).nextId ∧
    ∀ i ∈ (NormPrior posf dim vr lv s).1.ids,
      s.nextId ≤ i ∧ i < ((NormPrior posf dim vr lv s).2).nextId := by
  cases lv <;> simp [NormPrior]

theorem NormPosterior_nextId_range (posf sq : A → A) (rng : ℕ → A) (dim : ℕ)
    (pv : A) (s : GState) :
    s.nextId ≤ ((NormPosterior posf sq rng dim pv s).2).nextId ∧
    ∀ i ∈ (NormPosterior posf sq rng dim pv s).1.ids,
      s.nextId ≤ i ∧ i < ((NormPosterior posf sq rng dim pv s).2).nextId := by
  simp [NormPosterior]

theorem MixPosterior_build_nextId_range (posf sq : A → A) (rng : ℕ → A)
    (dim : ℕ) (pv : A) (k : ℕ) (s : GState) :
    s.nextId ≤ ((MixPosterior_build posf sq rng dim pv k s).2).nextId ∧
    ∀ b ∈ (MixPosterior_build posf sq rng dim pv k s).1, ∀ i ∈ b.ids,
      s.nextId ≤ i ∧ i < ((MixPosterior_build posf sq rng dim pv k s).2).nextId := by
  induction k generalizing s with
  | zero => simp [MixPosterior_build]
  | succ k ih =>
    have h1 := NormPosterior_nextId_range posf sq rng dim pv s
    have h2 := ih (NormPosterior posf sq rng dim pv s).2
    simp only [MixPosterior_build]
    constructor
    · exact le_trans h1.1 h2.1
    · intro b hb i hi
      rcases List.mem_cons.mp hb with hb | hb
      · have h := h1.2 i (hb ▸ hi)
        exact ⟨h.1, lt_of_lt_of_le h.2 h2.1⟩
      · have h := h2.2 b hb i hi
        exact ⟨le_trans h1.1 h.1, h.2⟩

theorem dense_params_nextId_range (posf sq : A → A) (rng : ℕ → A)
    (Wdim bdim : ℕ) (reg : A) (lp : Bool) (mx : ℕ) (s : GState) :
    s.nextId ≤ ((dense_params posf sq rng Wdim bdim reg lp mx s).2).nextId ∧
    ∀ i ∈ (dense_params posf sq rng Wdim bdim reg lp mx s).1.1.ids ++
        (dense_params posf sq rng Wdim bdim reg lp mx s).1.2.1.ids ++
        QPost_ids (dense_params posf sq rng Wdim bdim reg lp mx s).1.2.2.1 ++
        QPost_ids (dense_params posf sq rng Wdim bdim reg lp mx s).1.2.2.2,
      s.nextId ≤ i ∧ i < ((dense_params posf sq rng Wdim bdim reg lp mx s).2).nextId := by
  have hpW := NormPrior_nextId_range posf Wdim reg lp s
  have hpb := NormPrior_nextId_range posf bdim reg lp (NormPrior posf Wdim reg lp s).2
  by_cases hmx : mx > 1
  · have hqW := MixPosterior_build_nextId_range posf sq rng Wdim reg mx
      (NormPrior posf bdim reg lp (NormPrior posf Wdim reg lp s).2).2
    have hqb := MixPosterior_build_nextId_range posf sq rng bdim reg mx
      (MixPosterior_build posf sq rng Wdim reg mx
        (NormPrior posf bdim reg lp (NormPrior posf Wdim reg lp s).2).2).2
    simp only [dense_params, if_pos hmx]
    constructor
    · exact le_trans hpW.1 (le_trans hpb.1 (le_trans hqW.1 hqb.1))
    · intro i hi
      simp only [List.mem_append] at hi
      rcases hi with ((hi | hi) | hi) | hi
      · have h := hpW.2 i hi
        have := hpb.1; have := hqW.1; have := hqb.1
        omega
      · have h := hpb.2 i hi
        have := hpW.1; have := hqW.1; have := hqb.1
        omega
      · simp only [QPost_ids, List.mem_flatten, List.mem_map] at hi
        obtain ⟨l, ⟨b, hb, hl⟩, hil⟩ := hi
        have h := hqW.2 b hb i (hl ▸ hil)
        have := hpW.1; have := hpb.1; have := hqb.1
        omega
      · simp only [QPost_ids, List.mem_flatten, List.mem_map] at hi
        obtain ⟨l, ⟨b, hb, hl⟩, hil⟩ := hi
        have h := hqb.2 b hb i (hl ▸ hil)
        have := hpW.1; have := hpb.1; have := hqW.1
        omega
  · have hqW := NormPosterior_nextId_range posf sq rng Wdim reg
      (NormPrior posf bdim reg lp (NormPrior posf Wdim reg lp s).2).2
    have hqb := NormPosterior_nextId_range posf sq rng bdim reg
      (NormPosterior posf sq rng Wdim reg
        (NormPrior posf bdim reg lp (NormPrior posf Wdim reg lp s).2).2).2
    simp only [dense_params, if_neg hmx]
    constructor
    · exact le_trans hpW.1 (le_trans hpb.1 (le_trans hqW.1 hqb.1))
    · intro i hi
      simp only [List.mem_append] at hi
      rcases hi with ((hi | hi) | hi) | hi
      · have h := hpW.2 i hi
        have := hpb.1; have := hqW.1; have := hqb.1
        omega
      · have h := hpb.2 i hi
        have := hpW.1; have := hqW.1; have := hqb.1
        omega
      · have h := hqW.2 i (by simpa [QPost_ids] using hi)
        have := hpW.1; have := hpb.1; have := hqb.1
        omega
      · have h := hqb.2 i (by simpa [QPost_ids] using hi)
        have := hpW.1; have := hpb.1; have := hqW.1
        omega

theorem QPost_sample_nextId (sq : A → A) (rng : ℕ → A) (catRng : ℕ → ℕ)
    (q : QPost A) (s : GState) :
    ((QPost_sample sq rng catRng q s).2).nextId = s.nextId := by
  cases q <;> rfl

theorem dense_outputs_nextId (sq : A → A) (rng : ℕ → A) (catRng : ℕ → ℕ)
    (idim odim : ℕ) (qW qb : QPost A) (X : List (Mat A)) (s : GState) :
    ((dense_outputs sq rng catRng idim odim qW qb X s).2).nextId = s.nextId := by
  induction X generalizing s with
  | nil => rfl
  | cons x xs ih =>
    simp only [dense_outputs]
    rw [ih, QPost_sample_nextId, QPost_sample_nextId]

theorem build_dense_ids_range (L E : A → A) (pi : A) (posf sq : A → A)
    (rng : ℕ → A) (catRng : ℕ → ℕ) (od : ℕ) (reg : A) (lp : Bool) (mx : ℕ)
    (X : List (Mat A)) (s : GState) :
    s.nextId ≤ ((build_dense L E pi posf sq rng catRng od reg lp mx X s).state).nextId ∧
    ∀ i ∈ denseIds (build_dense L E pi posf sq rng catRng od reg lp mx X s),
      s.nextId ≤ i ∧
        i < ((build_dense L E pi posf sq rng catRng od reg lp mx X s).state).nextId := by
  have h := dense_params_nextId_range posf sq rng (inputDim X * od) od reg lp mx s
  have hst : ((build_dense L E pi posf sq rng catRng od reg lp mx X s).state).nextId =
      ((dense_params posf sq rng (inputDim X * od) od reg lp mx s).2).nextId := by
    rw [build_dense_state, dense_outputs_nextId]
  constructor
  · rw [hst]; exact h.1
  · intro i hi
    rw [hst]
    apply h.2
    simpa only [denseIds, build_dense_pW, build_dense_pb, build_dense_qW,
      build_dense_qb] using hi

/-- C2 amended: `dense_var`'s build function creates fresh prior and posterior
distributions (new `tf.Variable`s) on every invocation — there is no lazy
one-shot parameter cache — so a second build, with any input list, backs its
W and b distributions by variable ids disjoint from the first build's. -/
theorem C2_dense_var_fresh_params (L E : A → A) (pi : A) (posf sq : A → A)
    (rng : ℕ → A) (catRng : ℕ → ℕ) (od : ℕ) (reg : A) (lp : Bool) (mx : ℕ)
    (X1 X2 : List (Mat A)) (s : GState) :
    ∀ i ∈ denseIds (build_dense L E pi posf sq rng catRng od reg lp mx X2
        (build_dense L E pi posf sq rng catRng od reg lp mx X1 s).state),
      i ∉ denseIds (build_dense L E pi posf sq rng catRng od reg lp mx X1 s) := by
  intro i hi2 hi1
  have h1 := (build_dense_ids_range L E pi posf sq rng catRng od reg lp mx X1 s).2 i hi1
  have h2 := (build_dense_ids_range L E pi posf sq rng catRng od reg lp mx X2
    (build_dense L E pi posf sq rng catRng od reg lp mx X1 s).state).2 i hi2
  omega

/-- Witness for C2 at a concrete layer over the rationals: variable id 8,
allocated by the second build, is not among the first build's ids. -/
theorem C2_dense_var_fresh_params_witness :
    8 ∉ denseIds (build_dense (fun x : ℚ => x) (fun x => x) 3 (fun x => x * x + 1)
      (fun x => x) (fun i => (i : ℚ)) (fun _ => 0) 1 1 true 1 [[[1]]] ⟨0, 0, 0⟩) :=
  C2_dense_var_fresh_params (fun x : ℚ => x) (fun x => x) 3 (fun x => x * x + 1)
    (fun x => x) (fun i => (i : ℚ)) (fun _ => 0) 1 1 true 1 [[[1]]] [[[2]]] ⟨0, 0, 0⟩
    8 (by decide)

/-- C2 counterexample: a concrete `dense_var` layer (output_dim 1, reg 1,
learn_prior true, mixtures 1, over the rationals) built on `[[[1]]]` and then
on `[[[2]]]` does not reuse the first build's W posterior: the backing
variable ids differ. -/
theorem C2_dense_var_reuse_counterexample :
    ¬(QPost_ids ((build_dense (fun x : ℚ => x) (fun x => x) 3 (fun x => x * x + 1)
          (fun x => x) (fun i => (i : ℚ)) (fun _ => 0) 1 1 true 1 [[[2]]]
          ((build_dense (fun x : ℚ => x) (fun x => x) 3 (fun x => x * x + 1)
            (fun x => x) (fun i => (i : ℚ)) (fun _ => 0) 1 1 true 1 [[[1]]]
            ⟨0, 0, 0⟩).state)).qW) =
      QPost_ids ((build_dense (fun x : ℚ => x) (fun x => x) 3 (fun x => x * x + 1)
          (fun x => x) (fun i => (i : ℚ)) (fun _ => 0) 1 1 true 1 [[[1]]]
          ⟨0, 0, 0⟩).qW)) := by
  decide

/-! Which variance tensors are routed through the positivity transform. -/

theorem NormPrior_var_learn_pos (posf : A → A) (dim : ℕ) (vr : A) (s : GState)
    (hpos : ∀ x, 0 < posf x) :
    ∀ v ∈ (NormPrior posf dim vr true s).1.dist.var, 0 < v := by
  intro v hv
  rw [show (NormPrior posf dim vr true s).1.dist.var =
      List.replicate dim (posf vr) from rfl, List.mem_replicate] at hv
  rw [hv.2]
  exact hpos vr

theorem NormPrior_var_fixed (posf : A → A) (dim : ℕ) (vr : A) (s : GState) :
    (NormPrior posf dim vr false s).1.dist.var = List.replicate dim vr := rfl

theorem NormPosterior_var_pos (posf sq : A → A) (rng : ℕ → A) (dim : ℕ)
    (pv : A) (s : GState) (hpos : ∀ x, 0 < posf x) :
    ∀ v ∈ (NormPosterior posf sq rng dim pv s).1.dist.var, 0 < v := by
  intro v hv
  rw [show (NormPosterior posf sq rng dim pv s).1.dist.var =
      ((drawn rng (s.rpos + dim) dim).map (fun e => pv * e)).map posf from rfl,
    List.mem_map] at hv
  obtain ⟨y, -, hy⟩ := hv
  rw [← hy]
  exact hpos y

theorem MixPosterior_build_var_pos (posf sq : A → A) (rng : ℕ → A) (dim : ℕ)
    (pv : A) (k : ℕ) (s : GState) (hpos : ∀ x, 0 < posf x) :
    ∀ b ∈ (MixPosterior_build posf sq rng dim pv k s).1, ∀ v ∈ b.dist.var, 0 < v := by
  induction k generalizing s with
  | zero => simp [MixPosterior_build]
  | succ k ih =>
    intro b hb v hv
    simp only [MixPosterior_build] at hb
    rcases List.mem_cons.mp hb with hb | hb
    · exact NormPosterior_var_pos posf sq rng dim pv s hpos v (hb ▸ hv)
    · exact ih _ b hb v hv

/-! Branch lemmas for `dense_params`. -/

theorem dense_params_pW_eq (posf sq : A → A) (rng : ℕ → A) (Wdim bdim : ℕ)
    (reg : A) (lp : Bool) (mx : ℕ) (s : GState) :
    (dense_params posf sq rng Wdim bdim reg lp mx s).1.1 =
      (NormPrior posf Wdim reg lp s).1 := by
  by_cases hmx : mx > 1 <;> simp [dense_params, hmx]

theorem dense_params_pb_eq (posf sq : A → A) (rng : ℕ → A) (Wdim bdim : ℕ)
    (reg : A) (lp : Bool) (mx : ℕ) (s : GState) :
    (dense_params posf sq rng Wdim bdim reg lp mx s).1.2.1 =
      (NormPrior posf bdim reg lp (NormPrior posf Wdim reg lp s).2).1 := by
  by_cases hmx : mx > 1 <;> simp [dense_params, hmx]

theorem dense_params_mix_q (posf sq : A → A) (rng : ℕ → A) (Wdim bdim : ℕ)
    (reg : A) (lp : Bool) (mx : ℕ) (s : GState) (hmx : mx > 1) :
    (dense_params posf sq rng Wdim bdim reg lp mx s).1.2.2.1 =
      QPost.mix (MixPosterior_build posf sq rng Wdim reg mx
        (NormPrior posf bdim reg lp (NormPrior posf Wdim reg lp s).2).2).1 mx ∧
    (dense_params posf sq rng Wdim bdim reg lp mx s).1.2.2.2 =
      QPost.mix (MixPosterior_build posf sq rng bdim reg mx
        (MixPosterior_build posf sq rng Wdim reg mx
          (NormPrior posf bdim reg lp (NormPrior posf Wdim reg lp s).2).2).2).1 mx := by
  simp [dense_params, hmx]

theorem dense_params_single_q (posf sq : A → A) (rng : ℕ → A) (Wdim bdim : ℕ)
    (reg : A) (lp : Bool) (mx : ℕ) (s : GState) (hmx : ¬mx > 1) :
    (dense_params posf sq rng Wdim bdim reg lp mx s).1.2.2.1 =
      QPost.norm (NormPosterior posf sq rng Wdim reg
        (NormPrior posf bdim reg lp (NormPrior posf Wdim reg lp s).2).2).1 ∧
    (dense_params posf sq rng Wdim bdim reg lp mx s).1.2.2.2 =
      QPost.norm (NormPosterior posf sq rng bdim reg
        (NormPosterior posf sq rng Wdim reg
          (NormPrior posf bdim reg lp (NormPrior posf Wdim reg lp s).2).2).2).1 := by
  simp [dense_params, hmx]

/-- C3 amended: every posterior variance `dense_var` builds is routed through
the positivity transform `pos`, hence strictly positive, and so is the prior
variance when `learn_prior` is true; but when `learn_prior` is false the prior
variance is the raw scalar `reg` broadcast, not routed through `pos`, so
`var > 0` then holds only when `reg > 0`.  (`pos` itself lives in
aboleth.util, outside the staged sources; per the spec it maps any real to a
strictly positive value, the hypothesis `hpos`.) -/
theorem C3_variance_positivity_amended (L E : A → A) (pi : A) (posf sq : A → A)
    (rng : ℕ → A) (catRng : ℕ → ℕ) (od : ℕ) (reg : A) (lp : Bool) (mx : ℕ)
    (X : List (Mat A)) (s : GState) (hpos : ∀ x, 0 < posf x) :
    (∀ t ∈ QPost_vars (build_dense L E pi posf sq rng catRng od reg lp mx X s).qW,
      ∀ v ∈ t, 0 < v) ∧
    (∀ t ∈ QPost_vars (build_dense L E pi posf sq rng catRng od reg lp mx X s).qb,
      ∀ v ∈ t, 0 < v) ∧
    (lp = true →
      (∀ v ∈ (build_dense L E pi posf sq rng catRng od reg lp mx X s).pW.dist.var,
        0 < v) ∧
      (∀ v ∈ (build_dense L E pi posf sq rng catRng od reg lp mx X s).pb.dist.var,
        0 < v)) ∧
    (lp = false →
      (build_dense L E pi posf sq rng catRng od reg lp mx X s).pW.dist.var =
        List.replicate (inputDim X * od) reg ∧
      (build_dense L E pi posf sq rng catRng od reg lp mx X s).pb.dist.var =
        List.replicate od reg) := by
  refine ⟨?_, ?_, ?_, ?_⟩
  · rw [build_dense_qW]
    by_cases hmx : mx > 1
    · rw [(dense_params_mix_q posf sq rng (inputDim X * od) od reg lp mx s hmx).1]
      intro t ht v hv
      simp only [QPost_vars, List.mem_map] at ht
      obtain ⟨b, hb, rfl⟩ := ht
      exact MixPosterior_build_var_pos posf sq rng (inputDim X * od) reg mx _ hpos b hb v hv
    · rw [(dense_params_single_q posf sq rng (inputDim X * od) od reg lp mx s hmx).1]
      intro t ht v hv
      simp only [QPost_vars, List.mem_singleton] at ht
      subst ht
      exact NormPosterior_var_pos posf sq rng (inputDim X * od) reg _ hpos v hv
  · rw [build_dense_qb]
    by_cases hmx : mx > 1
    · rw [(dense_params_mix_q posf sq rng (inputDim X * od) od reg lp mx s hmx).2]
      intro t ht v hv
      simp only [QPost_vars, List.mem_map] at ht
      obtain ⟨b, hb, rfl⟩ := ht
      exact MixPosterior_build_var_pos posf sq rng od reg mx _ hpos b hb v hv
    · rw [(dense_params_single_q posf sq rng (inputDim X * od) od reg lp mx s hmx).2]
      intro t ht v hv
      simp only [QPost_vars, List.mem_singleton] at ht
      subst ht
      exact NormPosterior_var_pos posf sq rng od reg _ hpos v hv
  · intro hlp
    subst hlp
    rw [build_dense_pW, build_dense_pb, dense_params_pW_eq, dense_params_pb_eq]
    exact ⟨NormPrior_var_learn_pos posf (inputDim X * od) reg s hpos,
      NormPrior_var_learn_pos posf od reg _ hpos⟩
  · intro hlp
    subst hlp
    rw [build_dense_pW, build_dense_pb, dense_params_pW_eq, dense_params_pb_eq]
    exact ⟨NormPrior_var_fixed posf (inputDim X * od) reg s,
      NormPrior_var_fixed posf od reg _⟩

/-- Witness for C3 at a concrete layer over the rationals with
`pos x = x * x + 1`. -/
theorem C3_variance_positivity_witness :
    (∀ t ∈ QPost_vars ((build_dense (fun x : ℚ => x) (fun x => x) 3
        (fun x => x * x + 1) (fun x => x) (fun i => (i : ℚ)) (fun _ => 0)
        1 1 true 1 [[[1]]] ⟨0, 0, 0⟩).qW), ∀ v ∈ t, 0 < v) ∧
    (∀ v ∈ ((build_dense (fun x : ℚ => x) (fun x => x) 3
        (fun x => x * x + 1) (fun x => x) (fun i => (i : ℚ)) (fun _ => 0)
        1 1 true 1 [[[1]]] ⟨0, 0, 0⟩).pW.dist.var), 0 < v) := by
  have h := C3_variance_positivity_amended (fun x : ℚ => x) (fun x => x) 3
    (fun x => x * x + 1) (fun x => x) (fun i => (i : ℚ)) (fun _ => 0)
    1 1 true 1 [[[1]]] ⟨0, 0, 0⟩
    (by intro x; show (0 : ℚ) < x * x + 1; nlinarith [mul_self_nonneg x])
  exact ⟨h.1, (h.2.2.1 rfl).1⟩

/-- C3 counterexample: with `learn_prior = false` and `reg = -1` the prior
variance of `dense_var` is the raw scalar `reg`, never routed through the
positivity transform, and a non-positive variance reaches the KL
computation. -/
theorem C3_prior_var_unrouted_counterexample :
    ¬(∀ v ∈ ((build_dense (fun x : ℚ => x) (fun x => x) 3 (fun x => x * x + 1)
        (fun x => x) (fun i => (i : ℚ)) (fun _ => 0) 1 (-1) false 1 [[[1]]]
        ⟨0, 0, 0⟩).pW.dist.var), 0 < v) := by
  decide

/-! Elementwise extraction for `_Normal.KL`. -/

theorem getD_zipWith4 (f : A → A → A → A → A) (as bs cs ds : Tensor A) (i : ℕ)
    (ha : i < as.length) (hb : i < bs.length) (hc : i < cs.length)
    (hd : i < ds.length) :
    (zipWith4 f as bs cs ds).getD i 0 =
      f (as.getD i 0) (bs.getD i 0) (cs.getD i 0) (ds.getD i 0) := by
  induction as generalizing bs cs ds i with
  | nil => simp at ha
  | cons a as ih =>
    cases bs with
    | nil => simp at hb
    | cons b bs =>
      cases cs with
      | nil => simp at hc
      | cons c cs =>
        cases ds with
        | nil => simp at hd
        | cons d ds =>
          cases i with
          | zero => rfl
          | succ n =>
            rw [zipWith4]
            simp only [List.getD_cons_succ]
            exact ih bs cs ds n (by simpa using ha) (by simpa using hb)
              (by simpa using hc) (by simpa using hd)

/-- C5: `_Normal.KL` computes, elementwise, exactly
`0.5 * (log p.var - log q.var + q.var/p.var - 1 + (q.mu - p.mu)^2 / p.var)`,
and (in the single-Gaussian case `mixtures <= 1`) `dense_var` forms its scalar
KL contribution by summing these elementwise values for W and for b. -/
theorem C5_dense_var_sums_elementwise_KL :
    (∀ (L : A → A) (q p : NormalDist A) (i : ℕ),
      i < q.mu.length → i < q.var.length → i < p.mu.length → i < p.var.length →
      (Normal_KL L q p).getD i 0 =
        1 / 2 * (L (p.var.getD i 0) - L (q.var.getD i 0) +
          q.var.getD i 0 / p.var.getD i 0 - 1 +
          (q.mu.getD i 0 - p.mu.getD i 0) ^ 2 / p.var.getD i 0)) ∧
    (∀ (L E : A → A) (pi : A) (posf sq : A → A) (rng : ℕ → A) (catRng : ℕ → ℕ)
      (od : ℕ) (reg : A) (lp : Bool) (mx : ℕ) (X : List (Mat A)) (s : GState),
      mx ≤ 1 →
      ∃ dW db : BuiltNormal A,
        (build_dense L E pi posf sq rng catRng od reg lp mx X s).qW = QPost.norm dW ∧
        (build_dense L E pi posf sq rng catRng od reg lp mx X s).qb = QPost.norm db ∧
        (build_dense L E pi posf sq rng catRng od reg lp mx X s).KL =
          (Normal_KL L dW.dist
            (build_dense L E pi posf sq rng catRng od reg lp mx X s).pW.dist).sum +
          (Normal_KL L db.dist
            (build_dense L E pi posf sq rng catRng od reg lp mx X s).pb.dist).sum) := by
  constructor
  · intro L q p i ha hb hc hd
    exact getD_zipWith4 (fun qm qv pm pv => klTerm L qm qv pm pv) q.mu q.var p.mu p.var
      i ha hb hc hd
  · intro L E pi posf sq rng catRng od reg lp mx X s hmx
    have hmx' : ¬mx > 1 := by omega
    refine ⟨(NormPosterior posf sq rng (inputDim X * od) reg
        (NormPrior posf od reg lp (NormPrior posf (inputDim X * od) reg lp s).2).2).1,
      (NormPosterior posf sq rng od reg (NormPosterior posf sq rng (inputDim X * od) reg
        (NormPrior posf od reg lp (NormPrior posf (inputDim X * od) reg lp s).2).2).2).1,
      ?_, ?_, ?_⟩
    · rw [build_dense_qW,
        (dense_params_single_q posf sq rng (inputDim X * od) od reg lp mx s hmx').1]
    · rw [build_dense_qb,
        (dense_params_single_q posf sq rng (inputDim X * od) od reg lp mx s hmx').2]
    · rw [build_dense_KL, build_dense_pW, build_dense_pb,
        (dense_params_single_q posf sq rng (inputDim X * od) od reg lp mx s hmx').1,
        (dense_params_single_q posf sq rng (inputDim X * od) od reg lp mx s hmx').2,
        dense_params_pW_eq, dense_params_pb_eq]
      rfl

/-! Random Fourier kernels (layer.py lines 157-190) and the random Fourier
layer (layer.py lines 131-150). -/

/-- `RBF.weights(input_dim, n_features)` (layer.py lines 163-165): an
`input_dim x n_features` matrix of draws from the standard-normal stream
(row-major, starting at the current position), divided by `lenscale`; the
position advances past every entry, so nothing is cached between
invocations. -/
def RBF_weights (lenscale : A) (rng : ℕ → A) (input_dim n_features rpos : ℕ) :
    Mat A × ℕ :=
  let P := (List.range input_dim).map
    (fun i => drawn rng (rpos + i * n_features) n_features)
  (P.map (fun row => row.map (fun v => v / lenscale)), rpos + input_dim * n_features)

/-- `Matern.weights(input_dim, n_features)` (layer.py lines 175-190):
`df = 2 * (p + 0.5)`, `y` a standard-normal matrix of the same shape, `u` the
per-feature chi-square draws with `df` degrees of freedom (modelled by the
stream `chi`), returning `y * sqrt(df / u) / lenscale` with the `u_j`
broadcast down column `j`. -/
def Matern_weights (lenscale : A) (p : ℤ) (rng chi : ℕ → A) (sq : A → A)
    (input_dim n_features rpos : ℕ) : Mat A × ℕ :=
  let df : A := 2 * ((p : A) + 1 / 2)
  let y := (List.range input_dim).map
    (fun i => drawn rng (rpos + i * n_features) n_features)
  let u := drawn chi (rpos + input_dim * n_features) n_features
  let P := y.map (fun row => List.zipWith (fun yij uj => yij * sq (df / uj)) row u)
  (P.map (fun row => row.map (fun v => v / lenscale)),
   rpos + input_dim * n_features + n_features)

/-- The build function returned by `randomFourier(n_features, kernel)`
(layer.py lines 131-150, inner name `build_randomRBF`): the projection `P` is
drawn from `kernel.weights` exactly once at build time, and every input `x`
maps to `concat([cos(xP), sin(xP)], axis=1) / sqrt(n_features)`, with KL 0. -/
def build_randomRBF (cosf sinf sq : A → A) (kernel : ℕ → ℕ → ℕ → Mat A × ℕ)
    (n_features : ℕ) (X : List (Mat A)) (rpos : ℕ) : (List (Mat A) × A) × ℕ :=
  let idim := inputDim X
  let r := kernel idim n_features rpos
  let phi := fun x : Mat A =>
    let XP := matmul x r.1
    let real := XP.map (fun row => row.map cosf)
    let imag := XP.map (fun row => row.map sinf)
    (concat_feat [real, imag]).map (fun row => row.map (fun v => v / sq (n_features : A)))
  ((X.map phi, 0), r.2)

theorem drawn_length (rng : ℕ → A) (pos n : ℕ) : (drawn rng pos n).length = n := by
  simp [drawn]

theorem getD_range (m k : ℕ) (hk : k < m) : (List.range m).getD k 0 = k := by
  rw [List.getD_eq_getElem _ _ (by simpa using hk), List.getElem_range]

theorem drawn_getD (rng : ℕ → A) (pos n j : ℕ) (hj : j < n) :
    (drawn rng pos n).getD j 0 = rng (pos + j) := by
  unfold drawn
  rw [getD_map _ _ j 0 0 (by simpa using hj), getD_range n j hj]

/-- C8: `randomFourier`'s build function calls `kernel.weights` exactly once:
the output has one tensor per input, every one of them is
`concat([cos(xP), sin(xP)], axis=1) / sqrt(n_features)` for the same single
matrix `P` drawn at the build-time stream position, the KL contribution is 0,
and the stream advances only by that one draw however many inputs there
are. -/
theorem C8_randomFourier_single_draw (cosf sinf sq : A → A)
    (kernel : ℕ → ℕ → ℕ → Mat A × ℕ) (n : ℕ) (X : List (Mat A)) (rpos : ℕ) :
    ((build_randomRBF cosf sinf sq kernel n X rpos).1.1.length = X.length) ∧
    (∀ i, i < X.length →
      (build_randomRBF cosf sinf sq kernel n X rpos).1.1.getD i [] =
        (concat_feat
          [(matmul (X.getD i []) (kernel (inputDim X) n rpos).1).map
              (fun row => row.map cosf),
            (matmul (X.getD i []) (kernel (inputDim X) n rpos).1).map
              (fun row => row.map sinf)]).map
          (fun row => row.map (fun v => v / sq (n : A)))) ∧
    ((build_randomRBF cosf sinf sq kernel n X rpos).1.2 = 0) ∧
    ((build_randomRBF cosf sinf sq kernel n X rpos).2 = (kernel (inputDim X) n rpos).2) := by
  refine ⟨by simp [build_randomRBF], ?_, rfl, rfl⟩
  intro i hi
  show ((X.map _).getD i []) = _
  rw [getD_map _ X i [] [] hi]

/-- C9: `Matern.weights` sets `df = 2 * (p + 0.5)` and returns
`y * sqrt(df / u) / lenscale` with `y` the standard-normal draws and `u` the
per-feature chi-square draws; `RBF.weights` returns the standard-normal draws
divided by `lenscale`; both have shape `input_dim x n_features`, and a second
invocation reads the stream at fresh positions (nothing is cached). -/
theorem C9_kernel_weights (lenscale : A) (p : ℤ) (rng chi : ℕ → A) (sq : A → A)
    (d n rpos i j : ℕ) (hi : i < d) (hj : j < n) :
    ((RBF_weights lenscale rng d n rpos).1.length = d ∧
      ∀ row ∈ (RBF_weights lenscale rng d n rpos).1, row.length = n) ∧
    ((RBF_weights lenscale rng d n rpos).1.getD i []).getD j 0 =
      rng (rpos + i * n + j) / lenscale ∧
    ((Matern_weights lenscale p rng chi sq d n rpos).1.length = d ∧
      ∀ row ∈ (Matern_weights lenscale p rng chi sq d n rpos).1, row.length = n) ∧
    ((Matern_weights lenscale p rng chi sq d n rpos).1.getD i []).getD j 0 =
      rng (rpos + i * n + j) * sq (2 * ((p : A) + 1 / 2) / chi (rpos + d * n + j)) /
        lenscale ∧
    (RBF_weights lenscale rng d n rpos).2 = rpos + d * n ∧
    ((RBF_weights lenscale rng d n
        ((RBF_weights lenscale rng d n rpos).2)).1.getD i []).getD j 0 =
      rng (rpos + d * n + i * n + j) / lenscale := by
  have hRBFentry : ∀ r0 : ℕ,
      ((RBF_weights lenscale rng d n r0).1.getD i []).getD j 0 =
        rng (r0 + i * n + j) / lenscale := by
    intro r0
    simp only [RBF_weights]
    rw [getD_map (fun row => row.map (fun v => v / lenscale)) _ i [] []
        (by simp [hi]),
      getD_map (fun k => drawn rng (r0 + k * n) n) _ i 0 [] (by simp [hi]),
      getD_range d i hi,
      getD_map (fun v => v / lenscale) _ j 0 0 (by rw [drawn_length]; exact hj),
      drawn_getD rng _ n j hj]
  refine ⟨⟨by simp [RBF_weights], ?_⟩, hRBFentry rpos, ⟨by simp [Matern_weights], ?_⟩,
    ?_, rfl, ?_⟩
  · intro row hrow
    simp only [RBF_weights, List.mem_map] at hrow
    obtain ⟨r1, ⟨k, -, hk⟩, hrw⟩ := hrow
    rw [← hrw, ← hk]
    simp [drawn_length]
  · intro row hrow
    simp only [Matern_weights, List.mem_map] at hrow
    obtain ⟨r1, ⟨a, ⟨k, -, hk⟩, hz⟩, hrw⟩ := hrow
    rw [← hrw, ← hz, ← hk]
    simp [List.length_zipWith, drawn_length]
  · simp only [Matern_weights]
    rw [getD_map (fun row => row.map (fun v => v / lenscale)) _ i [] []
        (by simp [hi]),
      getD_map (fun row => List.zipWith
          (fun yij uj => yij * sq (2 * ((p : A) + 1 / 2) / uj)) row
          (drawn chi (rpos + d * n) n)) _ i [] []
        (by simp [hi]),
      getD_map (fun k => drawn rng (rpos + k * n) n) _ i 0 [] (by simp [hi]),
      getD_range d i hi,
      getD_map (fun v => v / lenscale) _ j 0 0
        (by rw [List.length_zipWith, drawn_length, drawn_length]; exact lt_min hj hj),
      getD_zipWith _ _ _ j 0 0 0 (by rw [drawn_length]; exact hj)
        (by rw [drawn_length]; exact hj),
      drawn_getD rng _ n j hj, drawn_getD chi _ n j hj]
  · rw [hRBFentry ((RBF_weights lenscale rng d n rpos).2)]
    rfl

/-- Witness for C9 at a concrete 1x1 draw over the rationals with
`lenscale = 1`, `p = 1` and identity square root. -/
theorem C9_kernel_weights_witness :
    (RBF_weights (1 : ℚ) (fun k => (k : ℚ)) 1 1 0).1.length = 1 ∧
    (RBF_weights (1 : ℚ) (fun k => (k : ℚ)) 1 1 0).2 = 0 + 1 * 1 ∧
    ((RBF_weights (1 : ℚ) (fun k => (k : ℚ)) 1 1 0).1.getD 0 []).getD 0 0 =
      ((0 + 0 * 1 + 0 : ℕ) : ℚ) / 1 ∧
    ((Matern_weights (1 : ℚ) 1 (fun k => (k : ℚ)) (fun k => (k : ℚ) + 1)
        (fun x => x) 1 1 0).1.getD 0 []).getD 0 0 =
      ((0 + 0 * 1 + 0 : ℕ) : ℚ) *
        (2 * (((1 : ℤ) : ℚ) + 1 / 2) / (((0 + 1 * 1 + 0 : ℕ) : ℚ) + 1)) / 1 := by
  have h := C9_kernel_weights (1 : ℚ) 1 (fun k => (k : ℚ)) (fun k => (k : ℚ) + 1)
    (fun x => x) 1 1 0 0 0 (by norm_num) (by norm_num)
  exact ⟨h.1.1, h.2.2.2.2.1, h.2.1, h.2.2.2.1⟩

end Aboleth
